import Mathlib

/-!
Verification of the cluster exerciser harness (src/main.rs).

The development shallowly embeds the harness's data model and operations:
the global message-identifier counter, the 8-byte little-endian wire
payload, the per-consumer observation logs and the durability oracle with
its validation pass, the paused-server bookkeeping, the weighted action
scheduler, the server process lifecycle, and the command-line parser.
External effects (the NATS server processes, the client transport, the
operating system) enter as explicit inputs: the outcome of a bounded
receive, the raw draws of the seeded random generator, and event traces
recording signals, process spawns and directory removals.
-/

namespace Exercise

/-! ## Identifier generator

Model of idgen: a static AtomicU64 starting at 0; fetch_add 1 returns the
previous value and stores the incremented value, wrapping modulo 2 ^ 64. -/

def fetch_add (c : Nat) : Nat × Nat := (c, (c + 1) % 2 ^ 64)

/-- State of the counter after n calls to idgen. -/
def idgenState : Nat → Nat
  | 0 => 0
  | n + 1 => (fetch_add (idgenState n)).2

/-- Value returned by the (n+1)-st call to idgen. -/
def idgenValue (n : Nat) : Nat := (fetch_add (idgenState n)).1

theorem idgenState_eq (n : Nat) : idgenState n = n % 2 ^ 64 := by
  induction n with
  | zero => rfl
  | succ n ih =>
      show (idgenState n + 1) % 2 ^ 64 = (n + 1) % 2 ^ 64
      rw [ih, Nat.mod_add_mod]

theorem idgenValue_eq (n : Nat) : idgenValue n = n % 2 ^ 64 := idgenState_eq n

/-! ## Wire payload

Model of u64::to_le_bytes and u64::from_le_bytes as used by publish and
consume: exactly 8 bytes, little endian, no other fields. -/

def toLeBytesAux : Nat → Nat → List Nat
  | 0, _ => []
  | n + 1, x => x % 256 :: toLeBytesAux n (x / 256)

def to_le_bytes (x : Nat) : List Nat := toLeBytesAux 8 x

def from_le_bytes (bs : List Nat) : Nat := bs.foldr (fun b acc => b + 256 * acc) 0

theorem toLeBytesAux_length (n x : Nat) : (toLeBytesAux n x).length = n := by
  induction n generalizing x with
  | zero => rfl
  | succ n ih => simp [toLeBytesAux, ih]

theorem from_toLeBytesAux (n : Nat) :
    ∀ x : Nat, from_le_bytes (toLeBytesAux n x) = x % 256 ^ n := by
  induction n with
  | zero => intro x; simp [toLeBytesAux, from_le_bytes, Nat.mod_one]
  | succ n ih =>
      intro x
      show x % 256 + 256 * from_le_bytes (toLeBytesAux n (x / 256)) = x % 256 ^ (n + 1)
      rw [ih (x / 256), pow_succ', Nat.mod_mul]

theorem toLeBytesAux_getElem (n : Nat) :
    ∀ x i : Nat, i < n → (toLeBytesAux n x)[i]? = some (x / 256 ^ i % 256) := by
  induction n with
  | zero => intro x i h; omega
  | succ n ih =>
      intro x i h
      match i with
      | 0 => simp [toLeBytesAux]
      | i + 1 =>
          have := ih (x / 256) i (by omega)
          simp only [toLeBytesAux, List.getElem?_cons_succ, this,
            Nat.div_div_eq_div_mul, pow_succ']

/-! ## Command-line parsing

Model of Args::parse. Arguments are byte strings (lists of characters);
each raw argument is sliced from index 2 onward without any check of what
the first two characters are, then split on the equals sign. A raw
argument shorter than two characters makes the slice panic; an unknown
option name, a missing value, or an unparsable value panics with the
usage text. -/

structure Args where
  path : List Char
  seed : Option Nat
  clients : Nat
  servers : Nat
  steps : Nat
deriving DecidableEq

def defaultArgs : Args :=
  { path := "nats-server".toList, seed := none, clients := 2, servers := 3, steps := 10000 }

/-- Rust str::split on the equals sign: always at least one segment. -/
def splitEq : List Char → List (List Char)
  | [] => [[]]
  | c :: rest =>
      if c = '=' then [] :: splitEq rest
      else
        match splitEq rest with
        | [] => [[c]]
        | g :: gs => (c :: g) :: gs

def digit? (c : Char) : Option Nat :=
  if '0' ≤ c ∧ c ≤ '9' then some (c.toNat - '0'.toNat) else none

/-- Decimal parse of an unsigned integer, failing on the empty string or a
non-digit, as u64::from_str does on the inputs we model. -/
def parseNat? : List Char → Option Nat
  | [] => none
  | cs@(_ :: _) =>
      cs.foldl
        (fun acc c =>
          match acc, digit? c with
          | some n, some d => some (n * 10 + d)
          | _, _ => none)
        (some 0)

/-- Integer parse with the width bound of the target type (u8 or u64). -/
def parseBounded (bound : Nat) (cs : List Char) : Option Nat :=
  match parseNat? cs with
  | some n => if n < bound then some n else none
  | none => none

inductive ParseOutcome where
  | ok (a : Args)
  | usageError
  | sliceError
deriving DecidableEq

/-- Shared shape of the four numeric options: take the segment after the
equals sign, parse it, or fail with the usage text. -/
def numArg (rest : List (List Char)) (bound : Nat) (k : Nat → Args) : ParseOutcome :=
  match rest.head? with
  | some v =>
      match parseBounded bound v with
      | some n => ParseOutcome.ok (k n)
      | none => ParseOutcome.usageError
  | none => ParseOutcome.usageError

/-- One iteration of the loop body of Args::parse on one raw argument. -/
def parseArg (a : Args) (raw : List Char) : ParseOutcome :=
  if raw.length < 2 then ParseOutcome.sliceError
  else
    match splitEq (raw.drop 2) with
    | [] => ParseOutcome.usageError
    | key :: rest =>
        if key = "path".toList then
          match rest.head? with
          | some v => ParseOutcome.ok { a with path := v }
          | none => ParseOutcome.usageError
        else if key = "seed".toList then
          numArg rest (2 ^ 64) (fun n => { a with seed := some n })
        else if key = "clients".toList then
          numArg rest 256 (fun n => { a with clients := n })
        else if key = "servers".toList then
          numArg rest 256 (fun n => { a with servers := n })
        else if key = "steps".toList then
          numArg rest (2 ^ 64) (fun n => { a with steps := n })
        else ParseOutcome.usageError

/-- Args::parse over the whole argument list, aborting at the first
failing argument. -/
def parseAll (l : List (List Char)) : ParseOutcome :=
  l.foldl
    (fun st raw =>
      match st with
      | ParseOutcome.ok a => parseArg a raw
      | e => e)
    (ParseOutcome.ok defaultArgs)

/-! ## Cluster state

The harness state: consumer logs, the durability oracle, the paused-server
bookkeeping, the set of consumers whose log grew since the last validation
pass, and the identifier counter. Server processes live outside the
harness; actions touching them additionally emit an event trace recording
the signals sent and the restarts performed, keyed by server index. -/

structure Consumer where
  observed : List Nat
  id : Nat
deriving DecidableEq

structure DurabilityModel where
  observed : List Nat
deriving DecidableEq

structure Cluster where
  clients : List Consumer
  numServers : Nat
  paused : Finset Nat
  unvalidated : List Nat
  idgenCtr : Nat
  durability_model : DurabilityModel
deriving DecidableEq

/-- Events observable at the cluster level: which server index received a
suspend signal, a continue signal, or was killed and respawned. -/
inductive CEvent where
  | sigstop (idx : Nat)
  | sigcont (idx : Nat)
  | restarted (idx : Nat)
deriving DecidableEq

/-- Outcome of one bounded-time receive by a consumer: a message payload,
a receive timeout, or any other transport error. -/
inductive ConsumeResult where
  | okMsg (data : List Nat)
  | errTimeout
  | errOther
deriving DecidableEq

/-- HashSet::insert on the model's insertion-ordered list of ids. -/
def insertNew (x : Nat) (l : List Nat) : List Nat :=
  if x ∈ l then l else l ++ [x]

/-- The body of the validation loop for one consumer log: compare the
overlapping prefixes (length the minimum of the two lengths); a mismatch
is the fatal assertion; a longer consumer log extends the oracle by the
suffix past the overlap. -/
def mergeOne (oracle log : List Nat) : Option (List Nat) :=
  let shared := min oracle.length log.length
  if oracle.take shared = log.take shared then
    if oracle.length < log.length then some (oracle ++ log.drop shared)
    else some oracle
  else none

/-- The validation loop over the unvalidated consumer ids, in iteration
order, indexing clients by id; an out-of-range id is the indexing panic. -/
def validateFrom (clients : List Consumer) (oracle : List Nat) : List Nat → Option (List Nat)
  | [] => some oracle
  | id :: rest =>
      match clients[id]? with
      | none => none
      | some c =>
          match mergeOne oracle c.observed with
          | none => none
          | some oracle2 => validateFrom clients oracle2 rest

/-- Cluster::validate: drain the unvalidated set and run the loop; none is
the aborted run. -/
def validate (s : Cluster) : Option Cluster :=
  match validateFrom s.clients s.durability_model.observed s.unvalidated with
  | none => none
  | some o => some { s with durability_model := ⟨o⟩, unvalidated := [] }

/-- Cluster::restart_server: pick a uniformly random index (gen_range
panics when there are no servers), restart that slot and clear it from the
paused set. -/
def restart_server (s : Cluster) (r : Nat) : Option (Cluster × List CEvent) :=
  if s.numServers = 0 then none
  else
    some ({ s with paused := s.paused.erase (r % s.numServers) },
      [CEvent.restarted (r % s.numServers)])

/-- The rejection-sampling loop of pause_server: redraw a uniformly random
index until it is not paused. The draws are the raw generator outputs; the
fuel bounds how many draws the model inspects, with none meaning the loop
is still running after that many draws. -/
def firstNonPaused (drw : Nat → Nat) (paused : Finset Nat) (n : Nat) : Nat → Option Nat
  | 0 => none
  | fuel + 1 =>
      if drw 0 % n ∈ paused then firstNonPaused (fun k => drw (k + 1)) paused n fuel
      else some (drw 0 % n)

/-- Cluster::pause_server: a no-op when every server is already paused;
otherwise draw a non-paused index, send it SIGSTOP and record it. -/
def pause_server (s : Cluster) (drw : Nat → Nat) (fuel : Nat) : Option (Cluster × List CEvent) :=
  if s.paused.card = s.numServers then some (s, [])
  else
    match firstNonPaused drw s.paused s.numServers fuel with
    | none => none
    | some idx => some ({ s with paused := insert idx s.paused }, [CEvent.sigstop idx])

/-- Cluster::resume_server: a no-op when nothing is paused; otherwise
choose a paused index (model: the r-th element of the sorted set), send it
SIGCONT and clear it. -/
def resume_server (s : Cluster) (r : Nat) : Cluster × List CEvent :=
  if s.paused.card = 0 then (s, [])
  else
    let idx := (s.paused.sort (· ≤ ·)).getD (r % s.paused.card) 0
    ({ s with paused := s.paused.erase idx }, [CEvent.sigcont idx])

/-- Cluster::publish: choose a uniformly random client (unwrap panics when
there are none), allocate the next identifier and publish its 8-byte
little-endian encoding; a publish transport failure is the fatal unwrap. -/
def publish (s : Cluster) (r : Nat) (transportOk : Bool) : Option Cluster :=
  match s.clients[r % s.clients.length]? with
  | none => none
  | some _ =>
      if transportOk then some { s with idgenCtr := (fetch_add s.idgenCtr).2 }
      else none

/-- Cluster::consume: choose a uniformly random client and do one bounded
receive. A delivered payload is decoded as 8 little-endian bytes (any
other size is the try_into unwrap panic), appended to the client's log,
and the client is marked unvalidated. Receive failures, timeout or not,
leave the state untouched. -/
def consume (s : Cluster) (r : Nat) (res : ConsumeResult) : Option Cluster :=
  match s.clients[r % s.clients.length]? with
  | none => none
  | some c =>
      match res with
      | ConsumeResult.okMsg data =>
          if data.length = 8 then
            some { s with
              clients := s.clients.set (r % s.clients.length)
                { c with observed := c.observed ++ [from_le_bytes data] },
              unvalidated := insertNew c.id s.unvalidated }
          else none
      | ConsumeResult.errTimeout => some s
      | ConsumeResult.errOther => some s

/-! ## The weighted scheduler -/

inductive Action where
  | restartServer
  | pauseServer
  | resumeServer
  | publishMsg
  | consumeMsg
deriving DecidableEq

/-- The match of Cluster::step on gen_range(0..50): 0 restarts, 1 to 4
pause, 5 to 9 resume, 10 to 29 publish, 30 to 49 consume; anything else is
the unreachable branch. -/
def chooseAction (v : Nat) : Option Action :=
  if v = 0 then some Action.restartServer
  else if v ≤ 4 then some Action.pauseServer
  else if v ≤ 9 then some Action.resumeServer
  else if v ≤ 29 then some Action.publishMsg
  else if v ≤ 49 then some Action.consumeMsg
  else none

/-- External inputs of one step: the generator draw selecting the action,
the draw selecting the action's target, the draw stream and inspection
bound of the pause loop, and the transport outcomes. -/
structure StepEnv where
  actionDraw : Nat
  targetDraw : Nat
  pauseDraws : Nat → Nat
  pauseFuel : Nat
  consumeRes : ConsumeResult
  publishOk : Bool

def applyAction (s : Cluster) (a : Action) (env : StepEnv) : Option (Cluster × List CEvent) :=
  match a with
  | Action.restartServer => restart_server s env.targetDraw
  | Action.pauseServer => pause_server s env.pauseDraws env.pauseFuel
  | Action.resumeServer => some (resume_server s env.targetDraw)
  | Action.publishMsg =>
      match publish s env.targetDraw env.publishOk with
      | none => none
      | some s2 => some (s2, [])
  | Action.consumeMsg =>
      match consume s env.targetDraw env.consumeRes with
      | none => none
      | some s2 => some (s2, [])

/-- Cluster::step: one weighted random action, then one validation pass. -/
def step (s : Cluster) (env : StepEnv) : Option (Cluster × List CEvent) :=
  match chooseAction (env.actionDraw % 50) with
  | none => none
  | some a =>
      match applyAction s a env with
      | none => none
      | some (mid, evs) =>
          match validate mid with
          | none => none
          | some s2 => some (s2, evs)

/-- The state Cluster::start builds: m consumers with ids 0 to m-1 and
empty logs, n servers, nothing paused, nothing unvalidated, the counter
fresh and the oracle empty. -/
def initialCluster (m n : Nat) : Cluster :=
  { clients := (List.range m).map (fun i => { observed := [], id := i }),
    numServers := n,
    paused := ∅,
    unvalidated := [],
    idgenCtr := 0,
    durability_model := ⟨[]⟩ }

/-- The sequence of scheduler choices of a run, as a function of the
action-selection draws alone. -/
def chosenActions (envs : Nat → StepEnv) (n : Nat) : List (Option Action) :=
  (List.range n).map (fun i => chooseAction ((envs i).actionDraw % 50))

/-! ## Invariant vocabulary -/

/-- Length of the observed log of the consumer at index i, 0 out of range. -/
def logLenAt (clients : List Consumer) (i : Nat) : Nat :=
  match clients[i]? with
  | some c => c.observed.length
  | none => 0

/-- Maximum observed-log length over a list of consumer indices. -/
def maxOver (clients : List Consumer) : List Nat → Nat
  | [] => 0
  | i :: rest => max (logLenAt clients i) (maxOver clients rest)

/-- Maximum observed-log length over all consumers. -/
def maxLog : List Consumer → Nat
  | [] => 0
  | c :: rest => max c.observed.length (maxLog rest)

/-- Structural well-formedness of the cluster state: consumer ids equal
their positions, and unvalidated ids are in range. -/
def WF (s : Cluster) : Prop :=
  (∀ i, ∀ h : i < s.clients.length, (s.clients.get ⟨i, h⟩).id = i) ∧
  (∀ i ∈ s.unvalidated, i < s.clients.length)

/-- The durability invariant between validation passes: a consumer log may
exceed the oracle only if that consumer is marked unvalidated, and the
oracle never exceeds the longest consumer log. -/
def Inv (s : Cluster) : Prop :=
  (∀ c ∈ s.clients,
      c.observed.length ≤ s.durability_model.observed.length ∨ c.id ∈ s.unvalidated) ∧
  s.durability_model.observed.length ≤ maxLog s.clients

/-- Pointwise relation between old and new consumer lists: same ids, and
each old log persists as a prefix of the new one. -/
def clientsGrow (l l2 : List Consumer) : Prop :=
  List.Forall₂ (fun c c2 => c.id = c2.id ∧ c.observed <+: c2.observed) l l2

/-! ## Paused-set bookkeeping against the signal trace -/

/-- Fold a trace of signals and restarts into the paused indices it
implies: a server index is paused after a SIGSTOP and unpaused after a
SIGCONT or a restart. -/
def pausedOfTrace (tr : List CEvent) : Finset Nat :=
  tr.foldl
    (fun p e =>
      match e with
      | CEvent.sigstop i => insert i p
      | CEvent.sigcont i => p.erase i
      | CEvent.restarted i => p.erase i)
    ∅

/-- Whether an event concerns server index i. -/
def touches (i : Nat) : CEvent → Bool
  | CEvent.sigstop j => j = i
  | CEvent.sigcont j => j = i
  | CEvent.restarted j => j = i

/-- Whether an event is a suspend signal. -/
def isStopEvent : CEvent → Bool
  | CEvent.sigstop _ => true
  | _ => false

/-- Whether the most recent event concerning index i in the trace is a
suspend signal with no subsequent resume or restart. -/
def lastSuspended (i : Nat) (tr : List CEvent) : Bool :=
  match tr.reverse.find? (fun e => touches i e) with
  | some (CEvent.sigstop _) => true
  | _ => false

/-! ## Server process lifecycle

Model of the Server struct, the server constructor function and
Server::restart. Processes and the filesystem are external, so the model
records what the harness does to them as an ordered event trace; the world
supplies fresh process ids. -/

structure Server where
  child : Option Nat
  port : Nat
  storage_dir : String
  path : String
  idx : Nat
deriving DecidableEq

inductive SEvent where
  | kill (pid : Nat)
  | wait (pid : Nat)
  | removeDirAll (dir : String)
  | spawn (pid : Nat) (port : Nat) (dir : String) (binPath : String)
deriving DecidableEq

structure World where
  nextPid : Nat
deriving DecidableEq

def storageDirOf (idx : Nat) : String := "jetstream_test_" ++ toString idx

/-- The server function: wipe the storage directory named by the index,
then spawn the process on port idx + 44000 over that directory. -/
def server (path : String) (idx : Nat) (w : World) : Server × World × List SEvent :=
  ({ child := some w.nextPid,
     port := idx + 44000,
     storage_dir := storageDirOf idx,
     path := path,
     idx := idx },
   { nextPid := w.nextPid + 1 },
   [SEvent.removeDirAll (storageDirOf idx),
    SEvent.spawn w.nextPid (idx + 44000) (storageDirOf idx) path])

/-- Drop for Server: kill and wait for the child when one is still owned,
then remove the storage directory. -/
def dropServer (s : Server) : List SEvent :=
  (match s.child with
   | some pid => [SEvent.kill pid, SEvent.wait pid]
   | none => []) ++ [SEvent.removeDirAll s.storage_dir]

/-- Server::restart: take the child (a missing child is the unwrap panic),
kill it and wait for it, then overwrite the slot with a freshly
constructed server for the same path and index; the overwritten old value
is dropped after the replacement is built, with its child already gone. -/
def Server.restart (s : Server) (w : World) : Option (Server × World × List SEvent) :=
  match s.child with
  | none => none
  | some pid =>
      let r := server s.path s.idx w
      some (r.1, r.2.1,
        [SEvent.kill pid, SEvent.wait pid] ++ r.2.2 ++ dropServer { s with child := none })

/-- A concrete step environment whose consume draw times out; used to
evaluate the model on concrete inputs. -/
def envTimeout : StepEnv :=
  { actionDraw := 30, targetDraw := 0, pauseDraws := fun _ => 0, pauseFuel := 0,
    consumeRes := ConsumeResult.errTimeout, publishOk := true }

/-- A concrete step environment selecting the pause action; used to
evaluate the model on concrete inputs. -/
def envPause : StepEnv :=
  { actionDraw := 1, targetDraw := 0, pauseDraws := fun _ => 0, pauseFuel := 1,
    consumeRes := ConsumeResult.errTimeout, publishOk := true }

/-! ## Helper lemmas -/

theorem mergeOne_some {o l o2 : List Nat} (h : mergeOne o l = some o2) :
    o <+: o2 ∧ o2.length = max o.length l.length := by
  simp only [mergeOne] at h
  split at h
  · split at h
    · cases h
      refine ⟨List.prefix_append _ _, ?_⟩
      simp only [List.length_append, List.length_drop]
      omega
    · cases h
      exact ⟨List.prefix_refl _, by omega⟩
  · cases h

theorem validateFrom_some (clients : List Consumer) :
    ∀ ids o o2, validateFrom clients o ids = some o2 →
      o <+: o2 ∧ o2.length = max o.length (maxOver clients ids) := by
  intro ids
  induction ids with
  | nil =>
      intro o o2 h
      cases h
      exact ⟨List.prefix_refl _, by simp [maxOver]⟩
  | cons i rest ih =>
      intro o o2 h
      simp only [validateFrom] at h
      cases hc : clients[i]? with
      | none => simp [hc] at h
      | some c =>
          simp only [hc] at h
          cases hm : mergeOne o c.observed with
          | none => simp [hm] at h
          | some o1 =>
              simp only [hm] at h
              obtain ⟨p1, len1⟩ := mergeOne_some hm
              obtain ⟨p2, len2⟩ := ih o1 o2 h
              refine ⟨p1.trans p2, ?_⟩
              simp only [maxOver, logLenAt, hc]
              omega

theorem le_maxLog {c : Consumer} {clients : List Consumer} (h : c ∈ clients) :
    c.observed.length ≤ maxLog clients := by
  induction clients with
  | nil => cases h
  | cons hd tl ih =>
      rcases List.mem_cons.mp h with rfl | hm
      · exact le_max_left _ _
      · exact le_trans (ih hm) (le_max_right _ _)

theorem maxLog_le {clients : List Consumer} {b : Nat}
    (h : ∀ c ∈ clients, c.observed.length ≤ b) : maxLog clients ≤ b := by
  induction clients with
  | nil => exact Nat.zero_le _
  | cons hd tl ih =>
      exact max_le (h hd (List.mem_cons_self _ _)) (ih fun c hc => h c (List.mem_cons_of_mem _ hc))

theorem logLenAt_le_maxLog {clients : List Consumer} {i : Nat} (h : i < clients.length) :
    logLenAt clients i ≤ maxLog clients := by
  unfold logLenAt
  rw [List.getElem?_eq_getElem h]
  exact le_maxLog (List.getElem_mem h)

theorem maxOver_le {clients : List Consumer} {ids : List Nat} {b : Nat}
    (h : ∀ i ∈ ids, logLenAt clients i ≤ b) : maxOver clients ids ≤ b := by
  induction ids with
  | nil => exact Nat.zero_le _
  | cons i rest ih =>
      exact max_le (h i (List.mem_cons_self _ _)) (ih fun j hj => h j (List.mem_cons_of_mem _ hj))

theorem le_maxOver {clients : List Consumer} {i : Nat} {ids : List Nat} (h : i ∈ ids) :
    logLenAt clients i ≤ maxOver clients ids := by
  induction ids with
  | nil => cases h
  | cons j rest ih =>
      rcases List.mem_cons.mp h with rfl | hm
      · exact le_max_left _ _
      · exact le_trans (ih hm) (le_max_right _ _)

theorem mem_logLenAt {clients : List Consumer}
    (hWF : ∀ i, ∀ h : i < clients.length, (clients.get ⟨i, h⟩).id = i)
    {c : Consumer} (hc : c ∈ clients) :
    c.id < clients.length ∧ logLenAt clients c.id = c.observed.length := by
  obtain ⟨n, hn⟩ := List.mem_iff_get.mp hc
  have hid : c.id = n.1 := by rw [← hn]; exact hWF n.1 n.2
  refine ⟨by rw [hid]; exact n.2, ?_⟩
  unfold logLenAt
  rw [hid, List.getElem?_eq_getElem n.2]
  rw [List.get_eq_getElem] at hn
  rw [hn]

theorem mem_insertNew {x i : Nat} {l : List Nat} : i ∈ insertNew x l ↔ i ∈ l ∨ i = x := by
  unfold insertNew
  split
  · constructor
    · exact Or.inl
    · rintro (h | rfl)
      · exact h
      · assumption
  · simp [List.mem_append]

theorem clientsGrow_refl (l : List Consumer) : clientsGrow l l :=
  List.forall₂_same.mpr (fun _ _ => ⟨rfl, List.prefix_refl _⟩)

theorem clientsGrow_set {l : List Consumer} {i : Nat} {c c2 : Consumer}
    (h : l[i]? = some c) (hid : c.id = c2.id) (hpre : c.observed <+: c2.observed) :
    clientsGrow l (l.set i c2) := by
  induction l generalizing i with
  | nil => cases h
  | cons hd tl ih =>
      cases i with
      | zero =>
          simp only [List.getElem?_cons_zero, Option.some.injEq] at h
          subst h
          exact List.Forall₂.cons ⟨hid, hpre⟩ (clientsGrow_refl tl)
      | succ i =>
          rw [List.getElem?_cons_succ] at h
          exact List.Forall₂.cons ⟨rfl, List.prefix_refl _⟩ (ih h)

theorem maxLog_le_of_grow {l l2 : List Consumer} (h : clientsGrow l l2) :
    maxLog l ≤ maxLog l2 := by
  induction h with
  | nil => exact le_refl _
  | cons hcc _ ih =>
      exact max_le_max hcc.2.length_le ih

theorem validate_some {s s2 : Cluster} (h : validate s = some s2) :
    ∃ o, validateFrom s.clients s.durability_model.observed s.unvalidated = some o ∧
      s2 = { s with durability_model := ⟨o⟩, unvalidated := [] } := by
  unfold validate at h
  cases hv : validateFrom s.clients s.durability_model.observed s.unvalidated with
  | none => rw [hv] at h; cases h
  | some o => rw [hv] at h; cases h; exact ⟨o, rfl, rfl⟩

theorem validate_post {s s2 : Cluster} (hWF : WF s) (hInv : Inv s)
    (h : validate s = some s2) :
    s2.clients = s.clients ∧ s2.paused = s.paused ∧ s2.numServers = s.numServers ∧
    s2.unvalidated = [] ∧
    s.durability_model.observed <+: s2.durability_model.observed ∧
    s2.durability_model.observed.length = maxLog s.clients ∧
    WF s2 ∧ Inv s2 := by
  obtain ⟨o, hv, rfl⟩ := validate_some h
  obtain ⟨hpre, hlen⟩ := validateFrom_some _ _ _ _ hv
  have h1 : s.durability_model.observed.length ≤ maxLog s.clients := hInv.2
  have h2 : maxOver s.clients s.unvalidated ≤ maxLog s.clients :=
    maxOver_le (fun i hi => logLenAt_le_maxLog (hWF.2 i hi))
  have h3 : maxLog s.clients ≤
      max s.durability_model.observed.length (maxOver s.clients s.unvalidated) := by
    refine maxLog_le (fun c hc => ?_)
    by_cases hid : c.id ∈ s.unvalidated
    · have : logLenAt s.clients c.id ≤ maxOver s.clients s.unvalidated := le_maxOver hid
      rw [(mem_logLenAt hWF.1 hc).2] at this
      exact le_trans this (le_max_right _ _)
    · rcases hInv.1 c hc with hle | hmem
      · exact le_trans hle (le_max_left _ _)
      · exact absurd hmem hid
  have hmaxeq : o.length = maxLog s.clients := by omega
  refine ⟨rfl, rfl, rfl, rfl, hpre, hmaxeq, ⟨hWF.1, by simp⟩, ?_, le_of_eq hmaxeq⟩
  intro c hc
  left
  rw [hmaxeq]
  exact le_maxLog hc

theorem step_some {s : Cluster} {env : StepEnv} {s2 : Cluster} {evs : List CEvent}
    (h : step s env = some (s2, evs)) :
    ∃ a mid, chooseAction (env.actionDraw % 50) = some a ∧
      applyAction s a env = some (mid, evs) ∧ validate mid = some s2 := by
  unfold step at h
  cases hca : chooseAction (env.actionDraw % 50) with
  | none => simp [hca] at h
  | some a =>
      simp only [hca] at h
      cases hap : applyAction s a env with
      | none => simp [hap] at h
      | some p =>
          obtain ⟨mid, evs2⟩ := p
          simp only [hap] at h
          cases hvm : validate mid with
          | none => simp [hvm] at h
          | some s3 =>
              simp only [hvm, Option.some.injEq, Prod.mk.injEq] at h
              obtain ⟨rfl, rfl⟩ := h
              exact ⟨a, mid, rfl, hap, hvm⟩

theorem applyAction_some {s : Cluster} {a : Action} {env : StepEnv} {mid : Cluster}
    {evs : List CEvent} (hWF : WF s) (hInv : Inv s)
    (h : applyAction s a env = some (mid, evs)) :
    WF mid ∧ Inv mid ∧ mid.durability_model = s.durability_model ∧
    clientsGrow s.clients mid.clients := by
  cases a with
  | restartServer =>
      simp only [applyAction, restart_server] at h
      split at h
      · cases h
      · simp only [Option.some.injEq, Prod.mk.injEq] at h
        obtain ⟨rfl, rfl⟩ := h
        exact ⟨hWF, hInv, rfl, clientsGrow_refl _⟩
  | pauseServer =>
      simp only [applyAction, pause_server] at h
      split at h
      · simp only [Option.some.injEq, Prod.mk.injEq] at h
        obtain ⟨rfl, rfl⟩ := h
        exact ⟨hWF, hInv, rfl, clientsGrow_refl _⟩
      · cases hfn : firstNonPaused env.pauseDraws s.paused s.numServers env.pauseFuel with
        | none => simp [hfn] at h
        | some idx =>
            simp only [hfn, Option.some.injEq, Prod.mk.injEq] at h
            obtain ⟨rfl, rfl⟩ := h
            exact ⟨hWF, hInv, rfl, clientsGrow_refl _⟩
  | resumeServer =>
      simp only [applyAction, resume_server] at h
      split at h
      · simp only [Option.some.injEq, Prod.mk.injEq] at h
        obtain ⟨rfl, rfl⟩ := h
        exact ⟨hWF, hInv, rfl, clientsGrow_refl _⟩
      · simp only [Option.some.injEq, Prod.mk.injEq] at h
        obtain ⟨rfl, rfl⟩ := h
        exact ⟨hWF, hInv, rfl, clientsGrow_refl _⟩
  | publishMsg =>
      simp only [applyAction] at h
      cases hp : publish s env.targetDraw env.publishOk with
      | none => simp [hp] at h
      | some s3 =>
          simp only [hp, Option.some.injEq, Prod.mk.injEq] at h
          obtain ⟨rfl, rfl⟩ := h
          simp only [publish] at hp
          cases hc : s.clients[env.targetDraw % s.clients.length]? with
          | none => simp [hc] at hp
          | some c =>
              simp only [hc] at hp
              split at hp
              · simp only [Option.some.injEq] at hp
                subst hp
                exact ⟨hWF, hInv, rfl, clientsGrow_refl _⟩
              · cases hp
  | consumeMsg =>
      simp only [applyAction] at h
      cases hcm : consume s env.targetDraw env.consumeRes with
      | none => simp [hcm] at h
      | some s3 =>
          simp only [hcm, Option.some.injEq, Prod.mk.injEq] at h
          obtain ⟨rfl, rfl⟩ := h
          simp only [consume] at hcm
          cases hc : s.clients[env.targetDraw % s.clients.length]? with
          | none => simp [hc] at hcm
          | some c =>
              simp only [hc] at hcm
              rcases henv : env.consumeRes with data | _ | _
              · rw [henv] at hcm
                simp only at hcm
                split at hcm
                · simp only [Option.some.injEq] at hcm
                  subst hcm
                  have hlt : env.targetDraw % s.clients.length < s.clients.length := by
                    by_contra hn
                    rw [List.getElem?_eq_none (by omega)] at hc
                    cases hc
                  have hgetc : s.clients[env.targetDraw % s.clients.length] = c :=
                    Option.some.inj ((List.getElem?_eq_getElem hlt).symm.trans hc)
                  have hcid : c.id = env.targetDraw % s.clients.length := by
                    have h0 := hWF.1 (env.targetDraw % s.clients.length) hlt
                    rw [List.get_eq_getElem, hgetc] at h0
                    exact h0
                  have hgrow : clientsGrow s.clients
                      (s.clients.set (env.targetDraw % s.clients.length)
                        { c with observed := c.observed ++ [from_le_bytes data] }) :=
                    clientsGrow_set hc rfl (List.prefix_append _ _)
                  refine ⟨⟨?_, ?_⟩, ⟨?_, ?_⟩, rfl, hgrow⟩
                  · intro i hi
                    have hi2 : i < s.clients.length := by
                      rw [List.length_set] at hi
                      exact hi
                    rw [List.get_eq_getElem]
                    by_cases hii : env.targetDraw % s.clients.length = i
                    · subst hii
                      rw [List.getElem_set_self]
                      exact hcid
                    · rw [List.getElem_set_of_ne hii]
                      have h0 := hWF.1 i hi2
                      rw [List.get_eq_getElem] at h0
                      exact h0
                  · intro i hi
                    rw [List.length_set]
                    rcases mem_insertNew.mp hi with hm | rfl
                    · exact hWF.2 i hm
                    · rw [hcid]
                      exact hlt
                  · intro c3 hc3
                    rcases List.mem_or_eq_of_mem_set hc3 with hmem | rfl
                    · rcases hInv.1 c3 hmem with hle | hu
                      · exact Or.inl hle
                      · exact Or.inr (mem_insertNew.mpr (Or.inl hu))
                    · exact Or.inr (mem_insertNew.mpr (Or.inr rfl))
                  · exact le_trans hInv.2 (maxLog_le_of_grow hgrow)
                · cases hcm
              · rw [henv] at hcm
                simp only [Option.some.injEq] at hcm
                subst hcm
                exact ⟨hWF, hInv, rfl, clientsGrow_refl _⟩
              · rw [henv] at hcm
                simp only [Option.some.injEq] at hcm
                subst hcm
                exact ⟨hWF, hInv, rfl, clientsGrow_refl _⟩

theorem initialCluster_WF (m n : Nat) : WF (initialCluster m n) := by
  constructor
  · intro i h
    simp [initialCluster, List.get_eq_getElem]
  · intro i hi
    cases hi

theorem initialCluster_Inv (m n : Nat) : Inv (initialCluster m n) := by
  constructor
  · intro c hc
    simp only [initialCluster, List.mem_map] at hc
    obtain ⟨i, _, rfl⟩ := hc
    exact Or.inl (Nat.zero_le _)
  · exact Nat.zero_le _

theorem pausedOfTrace_append (tr evs : List CEvent) :
    pausedOfTrace (tr ++ evs) = evs.foldl
      (fun p e =>
        match e with
        | CEvent.sigstop i => insert i p
        | CEvent.sigcont i => p.erase i
        | CEvent.restarted i => p.erase i)
      (pausedOfTrace tr) := by
  unfold pausedOfTrace
  rw [List.foldl_append]

theorem lastSuspended_append_pos (i : Nat) (tr : List CEvent) (e : CEvent)
    (h : touches i e = true) :
    lastSuspended i (tr ++ [e]) = isStopEvent e := by
  unfold lastSuspended
  rw [List.reverse_append]
  simp only [List.reverse_cons, List.reverse_nil, List.nil_append, List.singleton_append]
  rw [List.find?_cons_of_pos _ h]
  cases e <;> rfl

theorem lastSuspended_append_neg (i : Nat) (tr : List CEvent) (e : CEvent)
    (h : ¬ touches i e = true) :
    lastSuspended i (tr ++ [e]) = lastSuspended i tr := by
  unfold lastSuspended
  rw [List.reverse_append]
  simp only [List.reverse_cons, List.reverse_nil, List.nil_append, List.singleton_append]
  rw [List.find?_cons_of_neg _ h]

theorem mem_pausedOfTrace (i : Nat) (tr : List CEvent) :
    i ∈ pausedOfTrace tr ↔ lastSuspended i tr = true := by
  induction tr using List.reverseRecOn with
  | nil => simp [pausedOfTrace, lastSuspended]
  | append_singleton tr e ih =>
      rw [pausedOfTrace_append]
      cases e with
      | sigstop j =>
          show i ∈ insert j (pausedOfTrace tr) ↔ _
          by_cases hji : j = i
          · rw [lastSuspended_append_pos i tr _ (by simp [touches, hji])]
            simp [isStopEvent, Finset.mem_insert, hji]
          · rw [lastSuspended_append_neg i tr _ (by simp [touches, hji])]
            rw [Finset.mem_insert]
            have hij : ¬ i = j := fun hh => hji hh.symm
            simp [hij, ih]
      | sigcont j =>
          show i ∈ (pausedOfTrace tr).erase j ↔ _
          by_cases hji : j = i
          · rw [lastSuspended_append_pos i tr _ (by simp [touches, hji])]
            simp [isStopEvent, hji, Finset.not_mem_erase]
          · rw [lastSuspended_append_neg i tr _ (by simp [touches, hji])]
            rw [Finset.mem_erase]
            have hij : i ≠ j := fun hh => hji hh.symm
            simp [hij, ih]
      | restarted j =>
          show i ∈ (pausedOfTrace tr).erase j ↔ _
          by_cases hji : j = i
          · rw [lastSuspended_append_pos i tr _ (by simp [touches, hji])]
            simp [isStopEvent, hji, Finset.not_mem_erase]
          · rw [lastSuspended_append_neg i tr _ (by simp [touches, hji])]
            rw [Finset.mem_erase]
            have hij : i ≠ j := fun hh => hji hh.symm
            simp [hij, ih]

theorem publish_paused {s : Cluster} {r : Nat} {ok : Bool} {s3 : Cluster}
    (h : publish s r ok = some s3) : s3.paused = s.paused := by
  simp only [publish] at h
  cases hc : s.clients[r % s.clients.length]? with
  | none => simp [hc] at h
  | some c =>
      simp only [hc] at h
      split at h
      · simp only [Option.some.injEq] at h
        subst h
        rfl
      · cases h

theorem consume_paused {s : Cluster} {r : Nat} {res : ConsumeResult} {s3 : Cluster}
    (h : consume s r res = some s3) : s3.paused = s.paused := by
  cases res with
  | okMsg data =>
      simp only [consume] at h
      cases hc : s.clients[r % s.clients.length]? with
      | none => simp [hc] at h
      | some c =>
          simp only [hc] at h
          split at h
          · cases h
            rfl
          · cases h
  | errTimeout =>
      simp only [consume] at h
      cases hc : s.clients[r % s.clients.length]? with
      | none => simp [hc] at h
      | some c =>
          simp only [hc] at h
          cases h
          rfl
  | errOther =>
      simp only [consume] at h
      cases hc : s.clients[r % s.clients.length]? with
      | none => simp [hc] at h
      | some c =>
          simp only [hc] at h
          cases h
          rfl

theorem firstNonPaused_some {drw : Nat → Nat} {paused : Finset Nat} {n fuel idx : Nat}
    (h : firstNonPaused drw paused n fuel = some idx) : idx ∉ paused := by
  induction fuel generalizing drw with
  | zero => cases h
  | succ fuel ih =>
      unfold firstNonPaused at h
      split at h
      · exact ih h
      · simp only [Option.some.injEq] at h
        subst h
        assumption

theorem firstNonPaused_isSome {drw : Nat → Nat} {paused : Finset Nat} {n fuel : Nat}
    (h : ∃ k, k < fuel ∧ drw k % n ∉ paused) :
    (firstNonPaused drw paused n fuel).isSome = true := by
  induction fuel generalizing drw with
  | zero =>
      obtain ⟨k, hk, _⟩ := h
      omega
  | succ fuel ih =>
      obtain ⟨k, hk, hknot⟩ := h
      unfold firstNonPaused
      split
      · apply ih
        cases k with
        | zero =>
            exact absurd (by assumption) hknot
        | succ k =>
            exact ⟨k, by omega, hknot⟩
      · simp

theorem firstNonPaused_const_stuck :
    ∀ fuel, firstNonPaused (fun _ => 0) ({0} : Finset Nat) 2 fuel = none := by
  intro fuel
  induction fuel with
  | zero => rfl
  | succ fuel ih =>
      unfold firstNonPaused
      rw [if_pos (by decide)]
      exact ih

/-! ## Claim theorems -/

/-- C1: the validation pass visits each unvalidated consumer in turn,
comparing the consumer's log and the oracle on their overlapping prefix
of length the minimum of the two lengths; a differing prefix terminates
the run immediately (the whole pass returns none exactly when the loop
hits a mismatch), a log longer than the oracle appends its suffix beyond
the overlap to the oracle, a log no longer than the oracle leaves the
oracle unchanged, and a completed pass leaves the unvalidated set empty
with the oracle being the loop's result. -/
theorem c1_validation_pass (o l : List Nat) (s s2 : Cluster) :
    (o.take (min o.length l.length) ≠ l.take (min o.length l.length) →
      mergeOne o l = none) ∧
    (o.take (min o.length l.length) = l.take (min o.length l.length) →
      (o.length < l.length → mergeOne o l = some (o ++ l.drop (min o.length l.length))) ∧
      (¬ o.length < l.length → mergeOne o l = some o)) ∧
    (validate s = some s2 →
      s2.unvalidated = [] ∧
      validateFrom s.clients s.durability_model.observed s.unvalidated =
        some s2.durability_model.observed) ∧
    (validate s = none ↔
      validateFrom s.clients s.durability_model.observed s.unvalidated = none) := by
  refine ⟨?_, ?_, ?_, ?_⟩
  · intro hne
    simp [mergeOne, hne]
  · intro heq
    constructor
    · intro hlt
      simp [mergeOne, heq, hlt]
    · intro hge
      simp [mergeOne, heq, hge]
  · intro hv
    obtain ⟨o2, hvf, rfl⟩ := validate_some hv
    exact ⟨rfl, hvf⟩
  · unfold validate
    cases hv : validateFrom s.clients s.durability_model.observed s.unvalidated with
    | none => simp
    | some o2 => simp

theorem c1_validation_pass_witness : mergeOne [1, 2] [1, 3] = none :=
  (c1_validation_pass [1, 2] [1, 3] (initialCluster 1 1) (initialCluster 1 1)).1 (by decide)

/-- C2: across a successful step the oracle's observed sequence persists
as a prefix of its new value (so its length is non-decreasing and no
existing entry is ever modified), and after the step's validation pass
its length equals the longest consumer log; consumer logs themselves only
grow, and the well-formedness and durability invariants are preserved and
hold of the state Cluster::start builds, so the equality with the maximum
log length seen so far holds after every validation pass of a run. -/
theorem c2_oracle_growth (m n : Nat) (s : Cluster) (env : StepEnv) (s2 : Cluster)
    (evs : List CEvent) (hWF : WF s) (hInv : Inv s) (h : step s env = some (s2, evs)) :
    s.durability_model.observed <+: s2.durability_model.observed ∧
    s2.durability_model.observed.length = maxLog s2.clients ∧
    clientsGrow s.clients s2.clients ∧ WF s2 ∧ Inv s2 ∧
    WF (initialCluster m n) ∧ Inv (initialCluster m n) := by
  obtain ⟨a, mid, hca, hap, hv⟩ := step_some h
  obtain ⟨hWFm, hInvm, hdm, hgrow⟩ := applyAction_some hWF hInv hap
  obtain ⟨hcl, _, _, _, hpre, hlen, hWF2, hInv2⟩ := validate_post hWFm hInvm hv
  refine ⟨?_, ?_, ?_, hWF2, hInv2, initialCluster_WF m n, initialCluster_Inv m n⟩
  · rw [hdm] at hpre
    exact hpre
  · rw [hcl]
    exact hlen
  · rw [hcl]
    exact hgrow

theorem c2_oracle_growth_witness :
    (initialCluster 1 1).durability_model.observed <+:
      (initialCluster 1 1).durability_model.observed ∧
    (initialCluster 1 1).durability_model.observed.length =
      maxLog (initialCluster 1 1).clients ∧
    clientsGrow (initialCluster 1 1).clients (initialCluster 1 1).clients ∧
    WF (initialCluster 1 1) ∧ Inv (initialCluster 1 1) ∧
    WF (initialCluster 2 3) ∧ Inv (initialCluster 2 3) :=
  c2_oracle_growth 2 3 (initialCluster 1 1) envTimeout (initialCluster 1 1) []
    (initialCluster_WF 1 1) (initialCluster_Inv 1 1) rfl

/-- C3 counterexample: a transport error other than a timeout during the
consume action is not fatal: on a concrete one-client cluster the consume
action returns the unchanged state rather than aborting. -/
theorem c3_counterexample :
    consume (initialCluster 1 1) 0 ConsumeResult.errOther = some (initialCluster 1 1) ∧
    consume (initialCluster 1 1) 0 ConsumeResult.errOther ≠ none :=
  ⟨rfl, by decide⟩

/-- C3 amended: in the consume action a receive timeout is a no-op, and so
is every other receive transport error: neither appends anything, marks
anything unvalidated, nor fails; consume never aborts on a transport
error. -/
theorem c3_consume_swallows_errors (s : Cluster) (r : Nat) (c : Consumer)
    (h : s.clients[r % s.clients.length]? = some c) :
    consume s r ConsumeResult.errTimeout = some s ∧
    consume s r ConsumeResult.errOther = some s := by
  simp [consume, h]

theorem c3_consume_swallows_errors_witness :
    consume (initialCluster 2 3) 1 ConsumeResult.errTimeout = some (initialCluster 2 3) ∧
    consume (initialCluster 2 3) 1 ConsumeResult.errOther = some (initialCluster 2 3) :=
  c3_consume_swallows_errors (initialCluster 2 3) 1 ⟨[], 1⟩ rfl

/-- C8: the identifier generator is a process-wide counter whose value is
taken and incremented at publish time; within the first 2 ^ 64
allocations of a run the returned values strictly increase in generation
order (hence are pairwise distinct), the n-th value being n itself. -/
theorem c8_identifier_monotone (m n : Nat) (hmn : m < n) (hn : n < 2 ^ 64)
    (s : Cluster) (r : Nat) (c : Consumer)
    (hc : s.clients[r % s.clients.length]? = some c) :
    idgenValue m < idgenValue n ∧ idgenValue m ≠ idgenValue n ∧ idgenValue n = n ∧
    publish s r true = some { s with idgenCtr := (fetch_add s.idgenCtr).2 } := by
  have hm2 := idgenValue_eq m
  have hn2 := idgenValue_eq n
  rw [Nat.mod_eq_of_lt hn] at hn2
  rw [Nat.mod_eq_of_lt (lt_trans hmn hn)] at hm2
  refine ⟨by omega, by omega, hn2, ?_⟩
  simp [publish, hc]

theorem c8_identifier_monotone_witness :
    idgenValue 2 < idgenValue 7 ∧ idgenValue 2 ≠ idgenValue 7 ∧ idgenValue 7 = 7 ∧
    publish (initialCluster 1 1) 0 true =
      some { initialCluster 1 1 with idgenCtr := (fetch_add 0).2 } :=
  c8_identifier_monotone 2 7 (by norm_num) (by norm_num) (initialCluster 1 1) 0 ⟨[], 0⟩ rfl

/-- C9: the wire payload of an identifier is exactly 8 bytes, the i-th
byte being the i-th base-256 little-endian digit, with no other fields;
decoding after encoding is the identity on every 64-bit value, and
consume, fed such a payload, appends exactly the original identifier to
the chosen consumer's log and marks that consumer unvalidated. -/
theorem c9_payload_roundtrip (x : Nat) (hx : x < 2 ^ 64) (s : Cluster) (r : Nat)
    (c : Consumer) (hc : s.clients[r % s.clients.length]? = some c) :
    (to_le_bytes x).length = 8 ∧
    (∀ i, i < 8 → (to_le_bytes x)[i]? = some (x / 256 ^ i % 256)) ∧
    from_le_bytes (to_le_bytes x) = x ∧
    consume s r (ConsumeResult.okMsg (to_le_bytes x)) =
      some { s with
        clients := s.clients.set (r % s.clients.length)
          { c with observed := c.observed ++ [x] },
        unvalidated := insertNew c.id s.unvalidated } := by
  have hlen : (to_le_bytes x).length = 8 := toLeBytesAux_length 8 x
  have hrt : from_le_bytes (to_le_bytes x) = x := by
    unfold to_le_bytes
    rw [from_toLeBytesAux]
    have h8 : (256 : Nat) ^ 8 = 2 ^ 64 := by norm_num
    rw [h8]
    exact Nat.mod_eq_of_lt hx
  refine ⟨hlen, fun i hi => toLeBytesAux_getElem 8 x i hi, hrt, ?_⟩
  simp [consume, hc, hlen, hrt]

theorem c9_payload_roundtrip_witness :
    (to_le_bytes 5).length = 8 ∧
    (∀ i, i < 8 → (to_le_bytes 5)[i]? = some (5 / 256 ^ i % 256)) ∧
    from_le_bytes (to_le_bytes 5) = 5 ∧
    consume (initialCluster 1 1) 0 (ConsumeResult.okMsg (to_le_bytes 5)) =
      some { clients := [⟨[5], 0⟩], numServers := 1, paused := ∅, unvalidated := [0],
             idgenCtr := 0, durability_model := ⟨[]⟩ } :=
  c9_payload_roundtrip 5 (by norm_num) (initialCluster 1 1) 0 ⟨[], 0⟩ rfl

/-- C6: every step preserves the PausedSet invariant. If the paused set
matches the signal trace so far, then after the step it matches the trace
extended by the step's events, and hence an index is in the paused set
exactly when its process last received a suspend signal with no
subsequent resume or restart; moreover within the step pause_server
inserts exactly the index it suspended, resume_server removes exactly the
index it resumed, and restart_server removes exactly the index it
restarted, so a resumed or restarted index is never left paused. -/
theorem c6_paused_invariant (s : Cluster) (env : StepEnv) (s2 : Cluster)
    (evs tr : List CEvent) (h : step s env = some (s2, evs))
    (htr : s.paused = pausedOfTrace tr) :
    s2.paused = pausedOfTrace (tr ++ evs) ∧
    (∀ i, i ∈ s2.paused ↔ lastSuspended i (tr ++ evs) = true) ∧
    (∀ i, CEvent.sigstop i ∈ evs → i ∈ s2.paused) ∧
    (∀ i, CEvent.sigcont i ∈ evs → i ∉ s2.paused) ∧
    (∀ i, CEvent.restarted i ∈ evs → i ∉ s2.paused) := by
  obtain ⟨a, mid, hca, hap, hv⟩ := step_some h
  obtain ⟨o, hvf, rfl⟩ := validate_some hv
  suffices hmain : mid.paused = pausedOfTrace (tr ++ evs) ∧
      (∀ i, CEvent.sigstop i ∈ evs → i ∈ mid.paused) ∧
      (∀ i, CEvent.sigcont i ∈ evs → i ∉ mid.paused) ∧
      (∀ i, CEvent.restarted i ∈ evs → i ∉ mid.paused) by
    obtain ⟨h1, h3, h4, h5⟩ := hmain
    refine ⟨h1, ?_, h3, h4, h5⟩
    intro i
    rw [show ({ mid with durability_model := ⟨o⟩, unvalidated := [] } : Cluster).paused
          = mid.paused from rfl, h1]
    exact mem_pausedOfTrace i _
  cases a with
  | restartServer =>
      simp only [applyAction, restart_server] at hap
      split at hap
      · cases hap
      · simp only [Option.some.injEq, Prod.mk.injEq] at hap
        obtain ⟨rfl, rfl⟩ := hap
        refine ⟨by rw [pausedOfTrace_append, ← htr]; rfl, ?_, ?_, ?_⟩
        · intro i hi
          simp at hi
        · intro i hi
          simp at hi
        · intro i hi
          simp only [List.mem_singleton, CEvent.restarted.injEq] at hi
          subst hi
          exact Finset.not_mem_erase _ _
  | pauseServer =>
      simp only [applyAction, pause_server] at hap
      split at hap
      · simp only [Option.some.injEq, Prod.mk.injEq] at hap
        obtain ⟨rfl, rfl⟩ := hap
        refine ⟨by rw [List.append_nil, ← htr], ?_, ?_, ?_⟩
        all_goals intro i hi; simp at hi
      · cases hfn : firstNonPaused env.pauseDraws s.paused s.numServers env.pauseFuel with
        | none => simp [hfn] at hap
        | some idx =>
            simp only [hfn, Option.some.injEq, Prod.mk.injEq] at hap
            obtain ⟨rfl, rfl⟩ := hap
            refine ⟨by rw [pausedOfTrace_append, ← htr]; rfl, ?_, ?_, ?_⟩
            · intro i hi
              simp only [List.mem_singleton, CEvent.sigstop.injEq] at hi
              subst hi
              exact Finset.mem_insert_self _ _
            · intro i hi
              simp at hi
            · intro i hi
              simp at hi
  | resumeServer =>
      simp only [applyAction, resume_server] at hap
      split at hap
      · simp only [Option.some.injEq, Prod.mk.injEq] at hap
        obtain ⟨rfl, rfl⟩ := hap
        refine ⟨by rw [List.append_nil, ← htr], ?_, ?_, ?_⟩
        all_goals intro i hi; simp at hi
      · simp only [Option.some.injEq, Prod.mk.injEq] at hap
        obtain ⟨rfl, rfl⟩ := hap
        refine ⟨by rw [pausedOfTrace_append, ← htr]; rfl, ?_, ?_, ?_⟩
        · intro i hi
          simp at hi
        · intro i hi
          simp only [List.mem_singleton, CEvent.sigcont.injEq] at hi
          subst hi
          exact Finset.not_mem_erase _ _
        · intro i hi
          simp at hi
  | publishMsg =>
      simp only [applyAction] at hap
      cases hp : publish s env.targetDraw env.publishOk with
      | none => simp [hp] at hap
      | some s3 =>
          simp only [hp, Option.some.injEq, Prod.mk.injEq] at hap
          obtain ⟨rfl, rfl⟩ := hap
          refine ⟨by rw [List.append_nil, ← htr]; exact publish_paused hp, ?_, ?_, ?_⟩
          all_goals intro i hi; simp at hi
  | consumeMsg =>
      simp only [applyAction] at hap
      cases hcm : consume s env.targetDraw env.consumeRes with
      | none => simp [hcm] at hap
      | some s3 =>
          simp only [hcm, Option.some.injEq, Prod.mk.injEq] at hap
          obtain ⟨rfl, rfl⟩ := hap
          refine ⟨by rw [List.append_nil, ← htr]; exact consume_paused hcm, ?_, ?_, ?_⟩
          all_goals intro i hi; simp at hi

theorem c6_paused_invariant_witness :
    ({ initialCluster 1 2 with paused := {0} } : Cluster).paused =
      pausedOfTrace ([] ++ [CEvent.sigstop 0]) ∧
    (∀ i, i ∈ ({ initialCluster 1 2 with paused := {0} } : Cluster).paused ↔
      lastSuspended i ([] ++ [CEvent.sigstop 0]) = true) ∧
    (∀ i, CEvent.sigstop i ∈ [CEvent.sigstop 0] →
      i ∈ ({ initialCluster 1 2 with paused := {0} } : Cluster).paused) ∧
    (∀ i, CEvent.sigcont i ∈ [CEvent.sigstop 0] →
      i ∉ ({ initialCluster 1 2 with paused := {0} } : Cluster).paused) ∧
    (∀ i, CEvent.restarted i ∈ [CEvent.sigstop 0] →
      i ∉ ({ initialCluster 1 2 with paused := {0} } : Cluster).paused) :=
  c6_paused_invariant (initialCluster 1 2) envPause
    { initialCluster 1 2 with paused := {0} } [CEvent.sigstop 0] [] (by decide) rfl

/-- C7 counterexample: with two servers of which only index 0 is paused
(so a non-paused server exists), the generator stream that always draws
index 0 makes the selection loop of pause_server run forever: no
inspection bound ever makes it produce a result. -/
theorem c7_counterexample :
    1 ∉ ({0} : Finset Nat) ∧ 1 < 2 ∧
    ¬ ∃ fuel out,
      pause_server { initialCluster 1 2 with paused := {0} } (fun _ => 0) fuel = some out := by
  refine ⟨by decide, by decide, ?_⟩
  rintro ⟨fuel, out, hout⟩
  simp [pause_server, initialCluster, Finset.card_singleton, firstNonPaused_const_stuck fuel] at hout

/-- C7 amended: pause_server is a no-op whenever every server index is
already in the paused set, and any index its selection loop yields is not
paused; when at least one server is unpaused, the selection terminates
(and pause_server suspends and records the index it yields) as soon as
the generator proposes an unpaused index, which rejection sampling does
not by itself guarantee but which occurs with probability one under the
real generator. -/
theorem c7_pause_no_stall (s : Cluster) (drw : Nat → Nat) (fuel : Nat)
    (hsub : s.paused ⊆ Finset.range s.numServers) :
    (s.paused = Finset.range s.numServers → pause_server s drw fuel = some (s, [])) ∧
    (∀ idx, firstNonPaused drw s.paused s.numServers fuel = some idx → idx ∉ s.paused) ∧
    ((∃ j ∈ Finset.range s.numServers, j ∉ s.paused) →
      (∃ k, k < fuel ∧ drw k % s.numServers ∉ s.paused) →
      ∃ idx, idx ∉ s.paused ∧
        pause_server s drw fuel =
          some ({ s with paused := insert idx s.paused }, [CEvent.sigstop idx])) := by
  refine ⟨?_, fun idx h => firstNonPaused_some h, ?_⟩
  · intro hall
    simp [pause_server, hall, Finset.card_range]
  · rintro ⟨j, hjr, hjn⟩ hk
    have hne : s.paused.card ≠ s.numServers := by
      have hss : s.paused ⊂ Finset.range s.numServers :=
        (Finset.ssubset_iff_of_subset hsub).mpr ⟨j, hjr, hjn⟩
      have hcard := Finset.card_lt_card hss
      rw [Finset.card_range] at hcard
      omega
    have hsome := firstNonPaused_isSome hk
    cases hfn : firstNonPaused drw s.paused s.numServers fuel with
    | none => rw [hfn] at hsome; cases hsome
    | some idx =>
        exact ⟨idx, firstNonPaused_some hfn, by simp [pause_server, hne, hfn]⟩

theorem c7_pause_no_stall_witness :
    (({0, 1} : Finset Nat) = Finset.range 2 →
      pause_server { initialCluster 1 2 with paused := {0, 1} } (fun _ => 1) 1 =
        some ({ initialCluster 1 2 with paused := {0, 1} }, [])) ∧
    (∀ idx,
      firstNonPaused (fun _ => 1) ({0, 1} : Finset Nat) 2 1 = some idx →
        idx ∉ ({0, 1} : Finset Nat)) ∧
    ((∃ j ∈ Finset.range 2, j ∉ ({0, 1} : Finset Nat)) →
      (∃ k, k < 1 ∧ (fun _ => 1) k % 2 ∉ ({0, 1} : Finset Nat)) →
      ∃ idx, idx ∉ ({0, 1} : Finset Nat) ∧
        pause_server { initialCluster 1 2 with paused := {0, 1} } (fun _ => 1) 1 =
          some ({ { initialCluster 1 2 with paused := {0, 1} } with
                    paused := insert idx ({0, 1} : Finset Nat) },
                [CEvent.sigstop idx])) :=
  c7_pause_no_stall { initialCluster 1 2 with paused := {0, 1} } (fun _ => 1) 1 (by decide)

/-- C4: Server::restart on a slot whose process is running fully tears
down the old instance and replaces it in place: it kills and waits for
the old process and removes the storage directory before the replacement
process is spawned, the replacement is bound to the same index, the same
port and the same storage directory path with the storage wiped fresh,
and the deferred drop of the overwritten value no longer owns a process,
so only the directory removal runs after construction. -/
theorem c4_restart_teardown (s : Server) (w : World) (pid : Nat)
    (hchild : s.child = some pid) (hport : s.port = s.idx + 44000)
    (hdir : s.storage_dir = storageDirOf s.idx) :
    Server.restart s w = some
      ({ child := some w.nextPid, port := s.port, storage_dir := s.storage_dir,
         path := s.path, idx := s.idx },
       { nextPid := w.nextPid + 1 },
       [SEvent.kill pid, SEvent.wait pid, SEvent.removeDirAll s.storage_dir,
        SEvent.spawn w.nextPid s.port s.storage_dir s.path,
        SEvent.removeDirAll s.storage_dir]) := by
  simp [Server.restart, hchild, server, dropServer, hport, hdir]

theorem c4_restart_teardown_witness :
    Server.restart ⟨some 7, 44003, storageDirOf 3, "nats-server", 3⟩ ⟨10⟩ = some
      (⟨some 10, 44003, storageDirOf 3, "nats-server", 3⟩, ⟨11⟩,
       [SEvent.kill 7, SEvent.wait 7, SEvent.removeDirAll (storageDirOf 3),
        SEvent.spawn 10 44003 (storageDirOf 3) "nats-server",
        SEvent.removeDirAll (storageDirOf 3)]) :=
  c4_restart_teardown ⟨some 7, 44003, storageDirOf 3, "nats-server", 3⟩ ⟨10⟩ 7 rfl rfl rfl

/-- C5: the scheduler draws one value over 50 units whose fibers have the
weights restart 1, pause 4, resume 5, publish 20, consume 20; a
successful step decomposes as exactly the one action chosen by that draw
followed by exactly one validation pass; and the sequence of chosen
actions of a run is a function of the action-selection draws alone, so
two runs whose seeded generators produce the same draws choose the same
actions. -/
theorem c5_scheduler (s : Cluster) (env : StepEnv) (s2 : Cluster) (evs : List CEvent)
    (envs envs2 : Nat → StepEnv) (n : Nat)
    (hdraws : ∀ i, (envs i).actionDraw = (envs2 i).actionDraw)
    (h : step s env = some (s2, evs)) :
    ((Finset.range 50).filter (fun v => chooseAction v = some Action.restartServer)).card
        = 1 ∧
    ((Finset.range 50).filter (fun v => chooseAction v = some Action.pauseServer)).card
        = 4 ∧
    ((Finset.range 50).filter (fun v => chooseAction v = some Action.resumeServer)).card
        = 5 ∧
    ((Finset.range 50).filter (fun v => chooseAction v = some Action.publishMsg)).card
        = 20 ∧
    ((Finset.range 50).filter (fun v => chooseAction v = some Action.consumeMsg)).card
        = 20 ∧
    (∃ a mid, chooseAction (env.actionDraw % 50) = some a ∧
      applyAction s a env = some (mid, evs) ∧ validate mid = some s2) ∧
    chosenActions envs n = chosenActions envs2 n := by
  refine ⟨by decide, by decide, by decide, by decide, by decide, step_some h, ?_⟩
  unfold chosenActions
  have hfun : (fun i => chooseAction ((envs i).actionDraw % 50))
      = (fun i => chooseAction ((envs2 i).actionDraw % 50)) :=
    funext (fun i => by rw [hdraws i])
  rw [hfun]

theorem c5_scheduler_witness :
    ((Finset.range 50).filter (fun v => chooseAction v = some Action.restartServer)).card
        = 1 ∧
    ((Finset.range 50).filter (fun v => chooseAction v = some Action.pauseServer)).card
        = 4 ∧
    ((Finset.range 50).filter (fun v => chooseAction v = some Action.resumeServer)).card
        = 5 ∧
    ((Finset.range 50).filter (fun v => chooseAction v = some Action.publishMsg)).card
        = 20 ∧
    ((Finset.range 50).filter (fun v => chooseAction v = some Action.consumeMsg)).card
        = 20 ∧
    (∃ a mid, chooseAction (envTimeout.actionDraw % 50) = some a ∧
      applyAction (initialCluster 1 1) a envTimeout = some (mid, []) ∧
      validate mid = some (initialCluster 1 1)) ∧
    chosenActions (fun _ => envTimeout) 2 = chosenActions (fun _ => envTimeout) 2 :=
  c5_scheduler (initialCluster 1 1) envTimeout (initialCluster 1 1) []
    (fun _ => envTimeout) (fun _ => envTimeout) 2 (fun _ => rfl) rfl

/-- C10: Args::parse slices the first two characters off every raw
argument without checking they are the option prefix: an argument shorter
than two characters aborts with the out-of-bounds slice rather than the
usage message, the result of parsing an argument depends only on what
follows its first two characters, and in particular an argument reading
xxseed=7 sets the seed exactly like one reading the seed option
properly prefixed. -/
theorem c10_arg_slicing (a : Args) (raw : List Char) (c1 c2 d1 d2 : Char)
    (rest : List Char) :
    (raw.length < 2 → parseArg a raw = ParseOutcome.sliceError) ∧
    parseArg a (c1 :: c2 :: rest) = parseArg a (d1 :: d2 :: rest) ∧
    parseArg defaultArgs ("xxseed=7".toList) =
      ParseOutcome.ok { defaultArgs with seed := some 7 } ∧
    parseArg defaultArgs ("xxseed=7".toList) = parseArg defaultArgs ("--seed=7".toList) := by
  refine ⟨?_, ?_, by decide, by decide⟩
  · intro hlt
    simp [parseArg, hlt]
  · have h1 : ¬ (c1 :: c2 :: rest).length < 2 := by
      simp only [List.length_cons]
      omega
    have h2 : ¬ (d1 :: d2 :: rest).length < 2 := by
      simp only [List.length_cons]
      omega
    simp only [parseArg, if_neg h1, if_neg h2]
    rfl

theorem c10_arg_slicing_witness :
    parseArg defaultArgs ("s".toList) = ParseOutcome.sliceError ∧
    parseArg defaultArgs ('x' :: 'x' :: "seed=9".toList) =
      parseArg defaultArgs ('-' :: '-' :: "seed=9".toList) :=
  ⟨(c10_arg_slicing defaultArgs ("s".toList) 'x' 'x' '-' '-' ("seed=9".toList)).1 (by decide),
   (c10_arg_slicing defaultArgs ("s".toList) 'x' 'x' '-' '-' ("seed=9".toList)).2.1⟩

end Exercise
